import Mathlib

/-!
Z-order clustering core: reservoir state layout, flattened accessors,
reservoir sampling, bit interleaving and partition assignment.

The definitions of part 1 embed `src/zorder/zorder.h` (the struct
`ReservoirSamplingState` and the `RS_*` accessor macros).  Pointers are
64-bit addresses (`Nat` reduced modulo `2^64`), `int32` fields are `Int`,
a `Datum` is an 8-byte machine word.
-/

namespace ZOrder

/-! ## Part 1: the header `zorder.h` -/

/-- The constant `SAMPLE_HINT` of `zorder.h`. -/
def SAMPLE_HINT : Nat := 60

/-- The constant `MAX_SAMPLE_SIZE` of `zorder.h`. -/
def MAX_SAMPLE_SIZE : Nat := 1000000

/-- Number of values of a 64-bit word (pointers, `size_t`, `uint64_t`, `Datum`). -/
def WORD : Nat := 2 ^ 64

/-- Size in bytes of a `Datum` (an 8-byte word; the type comes from `fmgr.h`). -/
def sizeof_Datum : Nat := 8

/-- One member of a C struct: its name, its size and its alignment in bytes. -/
structure CField where
  name : String
  size : Nat
  align : Nat
  deriving Repr, DecidableEq

/-- Round `off` up to the next multiple of `a`. -/
def alignUp (off a : Nat) : Nat := ((off + a - 1) / a) * a

/-- C layout rule: starting at byte `off`, each member is placed at the next
offset that is a multiple of its alignment; returns the members with their
offsets. -/
def layoutFrom : Nat → List CField → List (CField × Nat)
  | _, [] => []
  | off, f :: fs => (f, alignUp off f.align) :: layoutFrom (alignUp off f.align + f.size) fs

/-- First byte after the last laid-out member. -/
def layoutEnd : Nat → List CField → Nat
  | off, [] => off
  | off, f :: fs => layoutEnd (alignUp off f.align + f.size) fs

/-- Largest member alignment (the alignment of the struct). -/
def structAlign (fs : List CField) : Nat := fs.foldl (fun a f => max a f.align) 1

/-- The fixed members of `struct ReservoirSamplingState`, in declaration order
(4-byte `int32` and `Oid`, 2-byte `int16`, 1-byte `bool` and `char`). -/
def headerFields : List CField :=
  [ ⟨"vl_len", 4, 4⟩, ⟨"data_len", 4, 4⟩, ⟨"sample_size", 4, 4⟩,
    ⟨"partition_num", 4, 4⟩, ⟨"input_size", 4, 4⟩, ⟨"element_type", 4, 4⟩,
    ⟨"typlen", 2, 2⟩, ⟨"typbyval", 1, 1⟩, ⟨"is_flattened", 1, 1⟩,
    ⟨"padding", 4, 1⟩ ]

/-- The flexible array member `Datum data[]`: no size of its own, `Datum` alignment. -/
def dataField : CField := ⟨"data", 0, sizeof_Datum⟩

/-- Byte offsets of the fixed members. -/
def headerOffsets : List Nat := (layoutFrom 0 headerFields).map Prod.snd

/-- Byte offset of `data[0]` in the struct: `offsetof(ReservoirSamplingState, data)`. -/
def offsetof_data : Nat := alignUp (layoutEnd 0 headerFields) dataField.align

/-- The constant `RS_HEADER_SIZE`, that is `sizeof(ReservoirSamplingState)`: the end of the
members rounded up to the alignment of the struct. -/
def RS_HEADER_SIZE : Nat :=
  alignUp (layoutEnd 0 (headerFields ++ [dataField])) (structAlign (headerFields ++ [dataField]))

/-- The struct `ReservoirSamplingState` of `zorder.h`.  `data` holds the
`data_len` slots of `data[]`; `region` holds the bytes of the block that
follow the slot array (the area `RS_DATA_PTR` points to). -/
structure ReservoirSamplingState where
  vl_len : Int
  data_len : Int
  sample_size : Int
  partition_num : Int
  input_size : Int
  element_type : Nat
  typlen : Int
  typbyval : Bool
  is_flattened : Bool
  data : List Nat
  region : List Nat
  deriving Repr, DecidableEq

/-- Conversion of a signed integer to `size_t` (twos complement, 64 bit). -/
def toSizeT (i : Int) : Nat := (i % (WORD : Int)).toNat

/-- The accessor `RS_ELEMTYPE(r)`: `((r)->element_type)`. -/
def RS_ELEMTYPE (r : ReservoirSamplingState) : Nat := r.element_type

/-- The accessor `RS_ELEM(r, n)`: the slot `(r)->data[(n)]`. -/
def RS_ELEM (r : ReservoirSamplingState) (n : Nat) : Nat := r.data.getD n 0

/-- Byte offset of the slot `data[n]` from the start of the block. -/
def slotOffset (n : Nat) : Nat := offsetof_data + n * sizeof_Datum

/-- The accessor `RS_DATA_OFFSET(r)`: `RS_HEADER_SIZE + ((r)->data_len) * sizeof(Datum)`,
computed in `size_t`. -/
def RS_DATA_OFFSET (r : ReservoirSamplingState) : Nat :=
  (RS_HEADER_SIZE + toSizeT r.data_len * sizeof_Datum) % WORD

/-- The accessor `RS_DATA_PTR(r)`: `((char *)(r)) + RS_DATA_OFFSET(r)` for the block at address `p`. -/
def RS_DATA_PTR (p : Nat) (r : ReservoirSamplingState) : Nat :=
  (p + RS_DATA_OFFSET r) % WORD

/-- The accessor `RS_FLAT_ELEM_OFFSET(r, n)`: `(uint64_t)RS_ELEM(r, n)`. -/
def RS_FLAT_ELEM_OFFSET (r : ReservoirSamplingState) (n : Nat) : Nat :=
  RS_ELEM r n % WORD

/-- The accessor `RS_FLAT_ELEM(r, n)`: `(Datum)(RS_DATA_PTR(r) + RS_FLAT_ELEM_OFFSET(r, n))`. -/
def RS_FLAT_ELEM (p : Nat) (r : ReservoirSamplingState) (n : Nat) : Nat :=
  (RS_DATA_PTR p r + RS_FLAT_ELEM_OFFSET r n) % WORD

/-- The accessor `RS_ELEM_ANY(r, n)`: `((r)->is_flattened) ? RS_FLAT_ELEM(r, n) : RS_ELEM(r, n)`. -/
def RS_ELEM_ANY (p : Nat) (r : ReservoirSamplingState) (n : Nat) : Nat :=
  if r.is_flattened then RS_FLAT_ELEM p r n else RS_ELEM r n

/-- Pointer difference `a - p` of two 64-bit addresses. -/
def ptrDiff (a p : Nat) : Nat := (a + WORD - p % WORD) % WORD

/-- Address of the slot `data[n]` of the block at address `p`: `&RS_ELEM(r, n)`. -/
def slotAddr (p n : Nat) : Nat := (p + slotOffset n) % WORD

/-! ## Part 2: reservoir sampling (transition and combine steps) -/

/-- Modelled from the spec: the Reservoir of section 3 (the state behind
`reservoir_sampling_transfn`, whose body is not in the header): `capacity`
is `sample_size`, `count_seen` is `input_size`, `elements` are the stored
values and their number is `data_len`. -/
structure Reservoir where
  capacity : Nat
  count_seen : Nat
  elements : List Nat
  deriving Repr, DecidableEq

/-- Modelled from the spec: a reservoir is created empty, with capacity
`SAMPLE_HINT × partition_num` chosen by the caller. -/
def Reservoir.empty (c : Nat) : Reservoir := ⟨c, 0, []⟩

/-- The capacity of a worker reservoir, `sample_size = SAMPLE_HINT * partition_num`
(comment on the field `sample_size` in `zorder.h`). -/
def sample_size_of (partition_num : Nat) : Nat := SAMPLE_HINT * partition_num

/-- The reservoir invariant of section 3: `len(elements) == min(count_seen, capacity)`. -/
def Reservoir.Inv (r : Reservoir) : Prop :=
  r.elements.length = min r.count_seen r.capacity

instance (r : Reservoir) : Decidable r.Inv := by
  unfold Reservoir.Inv; exact inferInstance

/-- Modelled from the spec: `reservoir_sampling_transfn` (section 4.1, `insert`),
only declared in the header.  "Increments `count_seen`; if
`len(elements) < capacity`, appends `value`; else draws a uniform random
integer `j` in `[0, count_seen)`, and if `j < capacity`, overwrites
`elements[j]` with `value`."  The random source is the word `draw`, reduced
into `[0, count_seen)`. -/
def reservoir_sampling_transfn (r : Reservoir) (value draw : Nat) : Reservoir :=
  let count := r.count_seen + 1
  if r.elements.length < r.capacity then
    { r with count_seen := count, elements := r.elements ++ [value] }
  else
    let j := draw % count
    if j < r.capacity then
      { r with count_seen := count, elements := r.elements.set j value }
    else
      { r with count_seen := count }

/-- A run of inserts from the empty reservoir of capacity `c`; each input is
a value together with the random word drawn for it. -/
def insertAll (c : Nat) (inputs : List (Nat × Nat)) : Reservoir :=
  inputs.foldl (fun r x => reservoir_sampling_transfn r x.1 x.2) (Reservoir.empty c)

/-- Modelled from the spec: one step of the weighted merge of section 4.2,
which mirrors the online rule of section 4.1 at reservoir granularity.
While the result holds fewer than `capacity` elements the element `e` is
appended; once the result is full, `e` is accepted with probability
`weight / total` (random word `d.1`; `weight` is the `count_seen` of the
reservoir that `e` comes from) and then replaces a uniformly chosen slot
(random word `d.2`). -/
def mergeStep (capacity total weight : Nat) (res : List Nat) (e : Nat) (d : Nat × Nat) :
    List Nat :=
  if res.length < capacity then res ++ [e]
  else if d.1 % total < weight then res.set (d.2 % res.length) e
  else res

/-- Modelled from the spec: the merge loop, "for each element in the
smaller-weighted input"; `draw i` is the pair of random words of step `i`. -/
def mergeInto (capacity total weight : Nat) (draw : Nat → Nat × Nat) :
    Nat → List Nat → List Nat → List Nat
  | _, res, [] => res
  | i, res, e :: es =>
    mergeInto capacity total weight draw (i + 1)
      (mergeStep capacity total weight res e (draw i)) es

/-- Modelled from the spec: `reservoir_sampling_collecfn` (section 4.2,
`combine`), only declared in the header.  "Result capacity =
`max(A.capacity, B.capacity)`; result `count_seen = A.count_seen +
B.count_seen`.  If `A.count_seen + B.count_seen <= capacity`, simply
concatenate elements.  Otherwise, for each element in the smaller-weighted
input", the element is taken into the result, which holds the elements of
the other input, by the online rule of `mergeStep`. -/
def reservoir_sampling_collecfn (A B : Reservoir) (draw : Nat → Nat × Nat) : Reservoir :=
  let capacity := max A.capacity B.capacity
  let total := A.count_seen + B.count_seen
  if total ≤ capacity then
    ⟨capacity, total, A.elements ++ B.elements⟩
  else if B.count_seen ≤ A.count_seen then
    ⟨capacity, total, mergeInto capacity total B.count_seen draw 0 A.elements B.elements⟩
  else
    ⟨capacity, total, mergeInto capacity total A.count_seen draw 0 B.elements A.elements⟩

/-- A reservoir that satisfies the invariant: capacity `c`, `seen` records
observed, `min(seen, c)` stored values. -/
def filledReservoir (c seen : Nat) : Reservoir := ⟨c, seen, List.replicate (min seen c) 0⟩

/-! ## Part 3: flattening -/

/-- The serialized bytes of the element that a `Datum` of the sampled column
stands for: for a pass-by-reference type (`byval = false`) the bytes the
`Datum` points to, for a pass-by-value type the bytes of the value held in
the `Datum` (the encoding of typed values by the host, outside the header). -/
abbrev DatumBytes := Bool → Nat → List Nat

/-- Modelled from the spec: the walk of `flatten` (section 4.3) over the
elements.  The bytes of each element are appended to the growing trailing
data region and its slot receives the byte offset of the start of these
bytes, counted from the start of the data region.  Returns the slots and
the region. -/
def flattenWalk (bytesOf : Nat → List Nat) : List Nat → List Nat → List Nat × List Nat
  | region, [] => ([], region)
  | region, e :: es =>
    let slot := region.length % WORD
    let rest := flattenWalk bytesOf (region ++ bytesOf e) es
    (slot :: rest.1, rest.2)

/-- Modelled from the spec: `rs_flatten` (section 4.3), only declared in the
header.  Flatten walks the elements, serializes the bytes of each value into
the trailing data region and stores a byte offset, never an address, in the
slot.  The layout written is the one the header reads: "the struct will be
flattened, and the data will store offset" (comment on `is_flattened`), and
`RS_FLAT_ELEM` resolves the stored value of every slot from `RS_DATA_PTR`,
so the offset is counted from the start of the data region, for every
element type (section 4.3 words it as counted from the slot and keeps
pass-by-value elements inline; the reader of the header fixes the layout).
The header keeps its counts and type metadata, `is_flattened` is set and
`vl_len` is the total size. -/
def rs_flatten (enc : DatumBytes) (r : ReservoirSamplingState) : ReservoirSamplingState :=
  let w := flattenWalk (enc r.typbyval) [] r.data
  { r with is_flattened := true, data := w.1, region := w.2,
           vl_len := ((RS_DATA_OFFSET r + w.2.length : Nat) : Int) }

/-- The `len` bytes of the block `f` at byte offset `off` from the start of
the block, when they lie in the data region. -/
def blockBytes (f : ReservoirSamplingState) (off len : Nat) : Option (List Nat) :=
  if RS_DATA_OFFSET f ≤ off ∧ off + len ≤ RS_DATA_OFFSET f + f.region.length then
    some ((f.region.drop (off - RS_DATA_OFFSET f)).take len)
  else none

/-- The element bytes that slot `n` of a live (unflattened) state denotes,
read through `RS_ELEM`. -/
def liveElem (enc : DatumBytes) (r : ReservoirSamplingState) (n : Nat) : List Nat :=
  enc r.typbyval (RS_ELEM r n)

/-- The element bytes that the `Datum` returned by `RS_ELEM_ANY` denotes for
the flattened block `f` placed at address `p`: the `len` bytes of the block
at that address. -/
def accessorElem (p : Nat) (f : ReservoirSamplingState) (n len : Nat) : Option (List Nat) :=
  blockBytes f (ptrDiff (RS_ELEM_ANY p f n) p) len

/-- A live state as the transition step leaves it: not flattened, `data_len`
slots, `data_len` an `int32`. -/
def LiveState (r : ReservoirSamplingState) : Prop :=
  r.is_flattened = false ∧ r.data_len = (r.data.length : Int) ∧ r.data.length < 2 ^ 31

/-! ## Part 4: bit interleaving -/

/-- Bit `b` of the unsigned value `v`. -/
def bitAt (v b : Nat) : Nat := (v / 2 ^ b) % 2

/-- Emit one bit into the next output bit position of the key. -/
def emitBit (b : Nat) (key v : Nat) : Nat := 2 * key + bitAt v b

/-- Emit bit `b` of every dimension, in the fixed dimension order. -/
def emitRow (b : Nat) (coords : List Nat) (key : Nat) : Nat :=
  coords.foldl (emitBit b) key

/-- The bit positions used for values of `width` bits and a budget of
`bits` per dimension: from the most significant bit downward, the top
`bits` positions. -/
def levels : Nat → Nat → List Nat
  | 0, _ => []
  | _, 0 => []
  | w + 1, k + 1 => w :: levels w k

/-- Modelled from the spec: `interleave_bits` (section 4.4), only declared in
the header.  "For `b` from the most significant bit downward, for each
dimension `d` in a fixed dimension order, emit bit `b` of the mapped value of dimension
`d` into the next output bit position"; only the top
`per_dimension_bits` of the `width`-bit mapped values are used. -/
def interleave_bits (width per_dimension_bits : Nat) (coords : List Nat) : Nat :=
  (levels width per_dimension_bits).foldl (fun key b => emitRow b coords key) 0

/-! ## Part 5: partition assignment -/

/-- Modelled from the spec: the binary search of section 4.5 over the slice
`[lo, hi)` of the boundary list. -/
def searchBoundary (key : Nat) (bounds : List Nat) (lo hi : Nat) : Nat :=
  if lo < hi then
    let mid := (lo + hi) / 2
    if key ≤ bounds.getD mid 0 then searchBoundary key bounds lo mid
    else searchBoundary key bounds (mid + 1) hi
  else lo
termination_by hi - lo
decreasing_by all_goals omega

/-- Modelled from the spec: `get_partitionid` (section 4.5, `assign`), only
declared in the header: "a binary search over the sorted boundary list: the
smallest index `i` such that `key <= boundaries[i]`, or `partition_num - 1`
if `key` exceeds all boundaries". -/
def get_partitionid (key : Nat) (bounds : List Nat) : Nat :=
  searchBoundary key bounds 0 bounds.length

/-! ## Part 6: auxiliary definitions for the statements -/

/-- A layout is packed between `s` and `e` when the first member starts at
`s`, every member starts where the previous one ends, and the last ends at `e`. -/
def Packed : Nat → List (CField × Nat) → Nat → Prop
  | s, [], e => s = e
  | s, x :: rest, e => x.2 = s ∧ Packed (x.2 + x.1.size) rest e

instance decPacked : (s : Nat) → (l : List (CField × Nat)) → (e : Nat) → Decidable (Packed s l e)
  | s, [], e => by unfold Packed; exact inferInstance
  | s, x :: rest, e => by
    unfold Packed
    have := decPacked (x.2 + x.1.size) rest e
    exact inferInstance

/-- The reader as section 7 of the spec describes it: the offset of slot `n`
is checked against the declared total size `S` of the block before it is
used; an offset outside the block (or a wrapping sum) is an error. -/
def resolveChecked (S p : Nat) (r : ReservoirSamplingState) (n : Nat) : Option Nat :=
  if RS_DATA_OFFSET r + RS_FLAT_ELEM_OFFSET r n < S ∧
      RS_DATA_OFFSET r + RS_FLAT_ELEM_OFFSET r n < WORD then
    some (p + (RS_DATA_OFFSET r + RS_FLAT_ELEM_OFFSET r n))
  else none

/-- A state used in examples: a flattened block of two slots. -/
def sampleFlat : ReservoirSamplingState :=
  ⟨53, 2, 240, 4, 17, 25, -1, false, true, [0, 3], [1, 2, 3, 4, 5]⟩

/-- A corrupt flattened block: declared size 48, one slot whose stored offset is 1000. -/
def corruptFlat : ReservoirSamplingState :=
  ⟨48, 1, 240, 4, 17, 25, -1, false, true, [1000], [1, 2, 3, 4, 5, 6, 7, 8]⟩

/-- Two pairs of numbers compare the same way. -/
def SameOrd (a b c d : Nat) : Prop := (a < b ↔ c < d) ∧ (a = b ↔ c = d)

/-- The serialized bytes of a sequence of elements, one after the other. -/
def regionOf (bytesOf : Nat → List Nat) : List Nat → List Nat
  | [] => []
  | e :: es => bytesOf e ++ regionOf bytesOf es

/-- A live state of two by-reference elements (pointers 1000 and 2000). -/
def liveByRef : ReservoirSamplingState :=
  ⟨0, 2, 240, 4, 17, 25, -1, false, false, [1000, 2000], []⟩

/-- A live state of one pass-by-value element (the 4-byte value 7). -/
def liveByVal : ReservoirSamplingState :=
  ⟨0, 1, 240, 4, 17, 23, 4, true, false, [7], []⟩

/-- The encoding of the examples: a pass-by-value `Datum` stands for its four
low bytes; in memory there are three bytes at 1000 and two bytes at 2000. -/
def sampleBytes : DatumBytes := fun byval a =>
  if byval then [a % 256, a / 256 % 256, a / 65536 % 256, a / 16777216 % 256]
  else if a = 1000 then [1, 2, 3] else if a = 2000 then [4, 5] else []

instance (r : ReservoirSamplingState) : Decidable (LiveState r) := by
  unfold LiveState; exact inferInstance

/-! ## Theorems: layout and accessors of the header -/

theorem RS_HEADER_SIZE_eq : RS_HEADER_SIZE = 32 := by decide

theorem offsetof_data_eq : offsetof_data = 32 := by decide

theorem toSizeT_of_nonneg (i : Int) (h0 : 0 ≤ i) (h1 : i < 2 ^ 31) :
    toSizeT i = i.toNat := by
  unfold toSizeT WORD
  rw [Int.emod_eq_of_lt h0 (by norm_num; omega)]

theorem RS_DATA_OFFSET_eq (r : ReservoirSamplingState) (h0 : 0 ≤ r.data_len)
    (h1 : r.data_len < 2 ^ 31) :
    RS_DATA_OFFSET r = 32 + r.data_len.toNat * 8 := by
  unfold RS_DATA_OFFSET
  rw [toSizeT_of_nonneg _ h0 h1, RS_HEADER_SIZE_eq]
  simp only [sizeof_Datum, WORD]
  have : r.data_len.toNat < 2 ^ 31 := by omega
  omega


theorem ptrDiff_add (p x : Nat) : ptrDiff ((p + x) % WORD) p = x % WORD := by
  unfold ptrDiff
  simp only [WORD]
  omega

/-- C10: the flattened block is the 32-byte header (members packed in
declaration order, no gap or overlap), then the slot array with slot `n` at
`RS_HEADER_SIZE + n * sizeof(Datum)`, then the data region at
`RS_DATA_OFFSET = RS_HEADER_SIZE + data_len * sizeof(Datum)`, which is the
end of the last slot; header size and slot offsets are multiples of
`sizeof(Datum)`. -/
theorem flattened_block_layout (r : ReservoirSamplingState) (n : Nat)
    (h0 : 0 ≤ r.data_len) (h1 : r.data_len < 2 ^ 31) :
    headerFields.map (fun f => f.name) =
        ["vl_len", "data_len", "sample_size", "partition_num", "input_size",
         "element_type", "typlen", "typbyval", "is_flattened", "padding"] ∧
      headerOffsets = [0, 4, 8, 12, 16, 20, 24, 26, 27, 28] ∧
      Packed 0 (layoutFrom 0 headerFields) RS_HEADER_SIZE ∧
      RS_HEADER_SIZE = 32 ∧
      offsetof_data = RS_HEADER_SIZE ∧
      slotOffset n = RS_HEADER_SIZE + n * sizeof_Datum ∧
      slotOffset (n + 1) = slotOffset n + sizeof_Datum ∧
      RS_DATA_OFFSET r = RS_HEADER_SIZE + r.data_len.toNat * sizeof_Datum ∧
      RS_DATA_OFFSET r = slotOffset r.data_len.toNat ∧
      (0 < r.data_len → RS_DATA_OFFSET r = slotOffset (r.data_len.toNat - 1) + sizeof_Datum) ∧
      RS_HEADER_SIZE % sizeof_Datum = 0 ∧
      slotOffset n % sizeof_Datum = 0 := by
  have hd := RS_DATA_OFFSET_eq r h0 h1
  have ho := offsetof_data_eq
  have hh := RS_HEADER_SIZE_eq
  refine ⟨by decide, by decide, by decide, hh, by rw [ho, hh], ?_, ?_, ?_, ?_, ?_, ?_, ?_⟩
  · simp only [slotOffset, ho, hh]
  · simp only [slotOffset, sizeof_Datum]; omega
  · rw [hd, hh]; rfl
  · rw [hd]; simp only [slotOffset, ho, sizeof_Datum]
  · intro hpos
    rw [hd]; simp only [slotOffset, ho, sizeof_Datum]
    omega
  · rw [hh]; rfl
  · simp only [slotOffset, ho, sizeof_Datum]; omega

theorem flattened_block_layout_witness :
    RS_DATA_OFFSET sampleFlat = slotOffset 2 ∧ slotOffset 1 = RS_HEADER_SIZE + 1 * sizeof_Datum :=
  have h := flattened_block_layout sampleFlat 1 (by decide) (by decide)
  ⟨h.2.2.2.2.2.2.2.2.1, h.2.2.2.2.2.1⟩

/-- C7: for a flattened block, the address resolved by `RS_ELEM_ANY` minus
the base address is the same for every base address, and equals
`RS_HEADER_SIZE + data_len * sizeof(Datum) + slot[n]` (as a 64-bit quantity,
and exactly whenever that sum fits in 64 bits). -/
theorem flattened_position_independent (r : ReservoirSamplingState) (p q n : Nat)
    (hf : r.is_flattened = true) (h0 : 0 ≤ r.data_len) (h1 : r.data_len < 2 ^ 31) :
    ptrDiff (RS_ELEM_ANY q r n) q = ptrDiff (RS_ELEM_ANY p r n) p ∧
      ptrDiff (RS_ELEM_ANY p r n) p =
        (RS_HEADER_SIZE + r.data_len.toNat * sizeof_Datum + RS_ELEM r n) % WORD ∧
      (RS_HEADER_SIZE + r.data_len.toNat * sizeof_Datum + RS_ELEM r n < WORD →
        ptrDiff (RS_ELEM_ANY p r n) p =
          RS_HEADER_SIZE + r.data_len.toNat * sizeof_Datum + RS_ELEM r n) := by
  have key : ∀ b, ptrDiff (RS_ELEM_ANY b r n) b =
      (RS_HEADER_SIZE + r.data_len.toNat * sizeof_Datum + RS_ELEM r n) % WORD := by
    intro b
    have hd := RS_DATA_OFFSET_eq r h0 h1
    simp only [RS_ELEM_ANY, hf, if_true, RS_FLAT_ELEM, RS_DATA_PTR, RS_FLAT_ELEM_OFFSET, hd,
      RS_HEADER_SIZE_eq, sizeof_Datum, ptrDiff, WORD]
    omega
  refine ⟨by rw [key q, key p], key p, ?_⟩
  intro hlt
  rw [key p, Nat.mod_eq_of_lt hlt]

theorem flattened_position_independent_witness :
    ptrDiff (RS_ELEM_ANY 65536 sampleFlat 1) 65536 = ptrDiff (RS_ELEM_ANY 4096 sampleFlat 1) 4096 ∧
      ptrDiff (RS_ELEM_ANY 4096 sampleFlat 1) 4096 = 51 :=
  have h := flattened_position_independent sampleFlat 4096 65536 1 (by decide) (by decide)
    (by decide)
  ⟨h.1, by rw [h.2.1]; decide⟩

/-- C8 (as stated, refuted): in the block `sampleFlat` placed at address
4096 the reader resolves slot 0 to address 4144, which is not the address of
slot 0 (4128) plus the value stored in it (0). -/
theorem slot_relative_base_counterexample :
    sampleFlat.is_flattened = true ∧
      RS_FLAT_ELEM 4096 sampleFlat 0 = 4144 ∧
      slotAddr 4096 0 + RS_ELEM sampleFlat 0 = 4128 ∧
      RS_FLAT_ELEM 4096 sampleFlat 0 ≠ slotAddr 4096 0 + RS_ELEM sampleFlat 0 := by
  decide

/-- C8 (amended): the reader `RS_FLAT_ELEM` resolves slot `n` to the start of
the data region (`RS_DATA_PTR`) plus the value stored in the slot; counted
from the slot itself this is the stored value plus
`sizeof(Datum) * (data_len - n)`. -/
theorem flat_elem_base_is_data_region (r : ReservoirSamplingState) (p n : Nat)
    (h0 : 0 ≤ r.data_len) (h1 : r.data_len < 2 ^ 31) (hn : (n : Int) < r.data_len) :
    ptrDiff (RS_FLAT_ELEM p r n) (RS_DATA_PTR p r) = RS_ELEM r n % WORD ∧
      ptrDiff (RS_FLAT_ELEM p r n) (slotAddr p n) =
        (RS_ELEM r n + sizeof_Datum * (r.data_len.toNat - n)) % WORD := by
  have hd := RS_DATA_OFFSET_eq r h0 h1
  have hlt : n < r.data_len.toNat := by omega
  have h2 : r.data_len.toNat < 2 ^ 31 := by omega
  simp only [RS_FLAT_ELEM, RS_DATA_PTR, RS_FLAT_ELEM_OFFSET, hd, slotAddr, slotOffset,
    offsetof_data_eq, sizeof_Datum, ptrDiff, WORD]
  constructor <;> omega

theorem flat_elem_base_is_data_region_witness :
    ptrDiff (RS_FLAT_ELEM 4096 sampleFlat 1) (RS_DATA_PTR 4096 sampleFlat) = 3 ∧
      ptrDiff (RS_FLAT_ELEM 4096 sampleFlat 1) (slotAddr 4096 1) = 11 :=
  have h := flat_elem_base_is_data_region sampleFlat 4096 1 (by decide) (by decide) (by decide)
  ⟨by rw [h.1]; decide, by rw [h.2]; decide⟩

/-- C9 (as stated, refuted): in the block `corruptFlat` of declared size 48
the offset stored in slot 0 points outside the block (40 + 1000 ≥ 48), a
checking reader reports an error, yet `RS_ELEM_ANY` yields the address
4096 + 1040, beyond the end of the block. -/
theorem corrupt_offset_counterexample :
    corruptFlat.is_flattened = true ∧
      RS_DATA_OFFSET corruptFlat + RS_ELEM corruptFlat 0 ≥ 48 ∧
      resolveChecked 48 4096 corruptFlat 0 = none ∧
      RS_ELEM_ANY 4096 corruptFlat 0 = 5136 ∧
      4096 + 48 ≤ RS_ELEM_ANY 4096 corruptFlat 0 ∧
      some (RS_ELEM_ANY 4096 corruptFlat 0) ≠ resolveChecked 48 4096 corruptFlat 0 := by
  decide

/-- C9 (amended): the reader carries no check.  For every flattened block
`RS_ELEM_ANY` yields the address `p + RS_DATA_OFFSET + slot[n]` (modulo
`2^64`) whatever the declared size `S`, also for an offset outside the
block; on every offset that a checking reader accepts (the offset lies
inside the data region) it yields the same address as the checking reader,
and that address lies inside the block. -/
theorem reader_has_no_bounds_check (r : ReservoirSamplingState) (S p n : Nat)
    (hf : r.is_flattened = true) :
    RS_ELEM_ANY p r n = (p + RS_DATA_OFFSET r + RS_ELEM r n) % WORD ∧
      (resolveChecked S p r n = none → S ≤ WORD →
        S ≤ RS_DATA_OFFSET r + RS_FLAT_ELEM_OFFSET r n) ∧
      (∀ a, resolveChecked S p r n = some a → p + S ≤ WORD →
        RS_ELEM_ANY p r n = a ∧ p + RS_DATA_OFFSET r ≤ a ∧ a < p + S) := by
  have hval : RS_ELEM_ANY p r n = (p + RS_DATA_OFFSET r + RS_ELEM r n) % WORD := by
    simp only [RS_ELEM_ANY, hf, if_true, RS_FLAT_ELEM, RS_DATA_PTR, RS_FLAT_ELEM_OFFSET, WORD]
    omega
  refine ⟨hval, ?_, ?_⟩
  · intro hnone hS
    unfold resolveChecked at hnone
    split at hnone
    · exact absurd hnone (by simp)
    · rename_i hcond
      by_contra hcon
      exact hcond ⟨by omega, by omega⟩
  · intro a ha hfit
    unfold resolveChecked at ha
    split at ha
    · rename_i hlt
      have hae := Option.some.inj ha
      subst hae
      rw [hval]
      unfold RS_FLAT_ELEM_OFFSET at hlt ⊢
      simp only [WORD] at hlt hfit ⊢
      generalize RS_DATA_OFFSET r = X at hlt ⊢
      generalize RS_ELEM r n = Y at hlt ⊢
      omega
    · exact absurd ha (by simp)

theorem reader_has_no_bounds_check_witness :
    RS_ELEM_ANY 4096 corruptFlat 0 = (4096 + RS_DATA_OFFSET corruptFlat + RS_ELEM corruptFlat 0) % WORD :=
  (reader_has_no_bounds_check corruptFlat 48 4096 0 (by decide)).1

/-! ## Theorems: partition assignment -/

/-- Index form of a non-decreasing list, through `getD`. -/
theorem sorted_getD_le {b : List Nat} (hs : b.Sorted (· ≤ ·)) {i j : Nat} (hij : i ≤ j)
    (hj : j < b.length) : b.getD i 0 ≤ b.getD j 0 := by
  have hi : i < b.length := lt_of_le_of_lt hij hj
  rw [List.getD_eq_getElem _ _ hi, List.getD_eq_getElem _ _ hj]
  rcases Nat.eq_or_lt_of_le hij with h | h
  · subst h; exact le_refl _
  · exact (List.pairwise_iff_getElem.mp hs) i j hi hj h

/-- Invariant of the binary search: everything left of the answer is below
the key, everything from the answer on is at least the key. -/
theorem searchBoundary_spec (key : Nat) (b : List Nat) (hs : b.Sorted (· ≤ ·)) :
    ∀ (d lo hi : Nat), hi - lo ≤ d → lo ≤ hi → hi ≤ b.length →
      (∀ i, i < lo → b.getD i 0 < key) →
      (∀ i, hi ≤ i → i < b.length → key ≤ b.getD i 0) →
      lo ≤ searchBoundary key b lo hi ∧ searchBoundary key b lo hi ≤ hi ∧
      (∀ i, i < searchBoundary key b lo hi → b.getD i 0 < key) ∧
      (∀ i, searchBoundary key b lo hi ≤ i → i < b.length → key ≤ b.getD i 0) := by
  intro d
  induction d with
  | zero =>
    intro lo hi hd hle _ hlo hhi
    have : lo = hi := by omega
    subst this
    rw [searchBoundary]
    simp only [lt_irrefl, if_false]
    exact ⟨le_refl _, le_refl _, hlo, hhi⟩
  | succ d ih =>
    intro lo hi hd hle hlen hlo hhi
    rw [searchBoundary]
    by_cases hlt : lo < hi
    · simp only [hlt, if_true]
      have hmid1 : lo ≤ (lo + hi) / 2 := by omega
      have hmid2 : (lo + hi) / 2 < hi := by omega
      by_cases hk : key ≤ b.getD ((lo + hi) / 2) 0
      · simp only [hk, if_true]
        have := ih lo ((lo + hi) / 2) (by omega) hmid1 (by omega) hlo (by
          intro i hi1 hi2
          exact le_trans hk (sorted_getD_le hs hi1 hi2))
        exact ⟨this.1, by omega, this.2.2.1, this.2.2.2⟩
      · simp only [hk, if_false]
        have := ih ((lo + hi) / 2 + 1) hi (by omega) (by omega) hlen (by
          intro i hi1
          have h1 : b.getD i 0 ≤ b.getD ((lo + hi) / 2) 0 :=
            sorted_getD_le hs (by omega) (by omega)
          omega) hhi
        exact ⟨by omega, this.2.1, this.2.2.1, this.2.2.2⟩
    · have : lo = hi := by omega
      subst this
      simp only [lt_irrefl, if_false]
      exact ⟨le_refl _, le_refl _, hlo, hhi⟩

/-- C1: for a non-decreasing boundary list, `get_partitionid` returns an index
in `[0, partition_num - 1]` (`partition_num - 1` is the number of
boundaries), which is the smallest `i` with `key <= bounds[i]`, and the
number of boundaries when the key exceeds them all; with the boundaries
`[10, 20, 30]` the keys 5, 10, 15, 30, 99 go to 0, 0, 1, 2, 3. -/
theorem get_partitionid_correct (key : Nat) (bounds : List Nat)
    (hs : bounds.Sorted (· ≤ ·)) :
    get_partitionid key bounds ≤ bounds.length ∧
      (∀ i, i < get_partitionid key bounds → ¬ key ≤ bounds.getD i 0) ∧
      (get_partitionid key bounds < bounds.length →
        key ≤ bounds.getD (get_partitionid key bounds) 0) ∧
      (∀ i, i < bounds.length → key ≤ bounds.getD i 0 → get_partitionid key bounds ≤ i) ∧
      ((∀ i, i < bounds.length → bounds.getD i 0 < key) →
        get_partitionid key bounds = bounds.length) ∧
      get_partitionid 5 [10, 20, 30] = 0 ∧ get_partitionid 10 [10, 20, 30] = 0 ∧
      get_partitionid 15 [10, 20, 30] = 1 ∧ get_partitionid 30 [10, 20, 30] = 2 ∧
      get_partitionid 99 [10, 20, 30] = 3 := by
  have h := searchBoundary_spec key bounds hs bounds.length 0 bounds.length (by omega)
    (Nat.zero_le _) (le_refl _) (fun i hi => absurd hi (Nat.not_lt_zero i))
    (fun i h1 h2 => absurd h2 (by omega))
  unfold get_partitionid
  refine ⟨h.2.1, ?_, ?_, ?_, ?_, ?_, ?_, ?_, ?_, ?_⟩
  · intro i hi hle
    have := h.2.2.1 i hi
    omega
  · intro hlt
    exact h.2.2.2 _ (le_refl _) hlt
  · intro i _ hle
    by_contra hcon
    have := h.2.2.1 i (by omega)
    omega
  · intro hall
    by_contra hne
    have hlt : searchBoundary key bounds 0 bounds.length < bounds.length :=
      lt_of_le_of_ne h.2.1 hne
    have h1 := h.2.2.2 _ (le_refl _) hlt
    have h2 := hall _ hlt
    omega
  all_goals simp [searchBoundary]

theorem get_partitionid_correct_witness :
    get_partitionid 25 [10, 20, 30, 30] ≤ 4 ∧
      (get_partitionid 25 [10, 20, 30, 30] < 4 →
        25 ≤ [10, 20, 30, 30].getD (get_partitionid 25 [10, 20, 30, 30]) 0) :=
  have h := get_partitionid_correct 25 [10, 20, 30, 30] (by decide)
  ⟨h.1, h.2.2.1⟩


/-! ## Theorems: reservoir sampling -/

theorem transfn_count (r : Reservoir) (v d : Nat) :
    (reservoir_sampling_transfn r v d).count_seen = r.count_seen + 1 ∧
      (reservoir_sampling_transfn r v d).capacity = r.capacity := by
  unfold reservoir_sampling_transfn
  simp only
  split
  · exact ⟨rfl, rfl⟩
  · split <;> exact ⟨rfl, rfl⟩

theorem transfn_length (r : Reservoir) (v d : Nat) :
    (reservoir_sampling_transfn r v d).elements.length =
      if r.elements.length < r.capacity then r.elements.length + 1 else r.elements.length := by
  unfold reservoir_sampling_transfn
  simp only
  split
  · simp
  · split <;> simp

theorem transfn_inv (r : Reservoir) (v d : Nat) (h : r.Inv) :
    (reservoir_sampling_transfn r v d).Inv := by
  unfold Reservoir.Inv at h ⊢
  rw [transfn_length, (transfn_count r v d).1, (transfn_count r v d).2]
  split <;> omega

theorem insert_run (inputs : List (Nat × Nat)) :
    ∀ r : Reservoir, r.Inv →
      (inputs.foldl (fun r x => reservoir_sampling_transfn r x.1 x.2) r).Inv ∧
      (inputs.foldl (fun r x => reservoir_sampling_transfn r x.1 x.2) r).count_seen =
        r.count_seen + inputs.length ∧
      (inputs.foldl (fun r x => reservoir_sampling_transfn r x.1 x.2) r).capacity = r.capacity := by
  induction inputs with
  | nil => intro r h; exact ⟨h, rfl, rfl⟩
  | cons x xs ih =>
    intro r h
    have h1 := ih (reservoir_sampling_transfn r x.1 x.2) (transfn_inv r x.1 x.2 h)
    have h2 := transfn_count r x.1 x.2
    simp only [List.foldl_cons, List.length_cons]
    refine ⟨h1.1, ?_, ?_⟩
    · rw [h1.2.1, h2.1]; omega
    · rw [h1.2.2, h2.2]

/-- C2: after `n` inserts into an empty reservoir of capacity `c`, for every
outcome of the random draws, `count_seen = n` and the number of stored
elements is `min(n, c)`, never more than `c`; an insert into a full
reservoir keeps the number of elements and changes at most one slot. -/
theorem reservoir_insert_invariant (c : Nat) (inputs : List (Nat × Nat))
    (r : Reservoir) (v d : Nat) (hfull : r.capacity ≤ r.elements.length) :
    (insertAll c inputs).count_seen = inputs.length ∧
      (insertAll c inputs).elements.length = min inputs.length c ∧
      (insertAll c inputs).elements.length ≤ c ∧
      (insertAll c inputs).capacity = c ∧
      (reservoir_sampling_transfn r v d).elements.length = r.elements.length ∧
      ∃ j : Nat, ∀ i : Nat, i ≠ j →
        (reservoir_sampling_transfn r v d).elements[i]? = r.elements[i]? := by
  have h0 : (Reservoir.empty c).Inv := by simp [Reservoir.Inv, Reservoir.empty]
  have h := insert_run inputs (Reservoir.empty c) h0
  have hc : (insertAll c inputs).count_seen = inputs.length := by
    unfold insertAll; rw [h.2.1]; simp [Reservoir.empty]
  have hcap : (insertAll c inputs).capacity = c := by
    unfold insertAll; rw [h.2.2]; rfl
  have hinv : (insertAll c inputs).elements.length = min inputs.length c := by
    have := h.1
    unfold Reservoir.Inv at this
    unfold insertAll
    rw [this, h.2.1, h.2.2]
    simp [Reservoir.empty]
  refine ⟨hc, hinv, by rw [hinv]; exact Nat.min_le_right _ _, hcap, ?_, ?_⟩
  · rw [transfn_length]
    simp only [Nat.not_lt.mpr hfull, if_false]
  · unfold reservoir_sampling_transfn
    simp only [Nat.not_lt.mpr hfull, if_false]
    split
    · refine ⟨d % (r.count_seen + 1), ?_⟩
      intro i hi
      simp only
      rw [List.getElem?_set_ne (Ne.symm hi)]
    · exact ⟨0, fun i _ => rfl⟩

theorem reservoir_insert_invariant_witness :
    (insertAll 3 [(1, 0), (2, 0), (3, 0), (4, 1), (5, 7)]).count_seen = 5 ∧
      (insertAll 3 [(1, 0), (2, 0), (3, 0), (4, 1), (5, 7)]).elements.length = min 5 3 ∧
      (reservoir_sampling_transfn ⟨3, 5, [1, 4, 3]⟩ 6 3).elements.length = 3 :=
  have h := reservoir_insert_invariant 3 [(1, 0), (2, 0), (3, 0), (4, 1), (5, 7)]
    ⟨3, 5, [1, 4, 3]⟩ 6 3 (by decide)
  ⟨h.1, h.2.1, h.2.2.2.2.1⟩

theorem mergeStep_length (capacity total weight : Nat) (res : List Nat) (e : Nat)
    (d : Nat × Nat) :
    (mergeStep capacity total weight res e d).length =
      if res.length < capacity then res.length + 1 else res.length := by
  unfold mergeStep
  split
  · simp
  · split <;> simp

theorem mergeStep_mem (capacity total weight : Nat) (res : List Nat) (e : Nat)
    (d : Nat × Nat) (x : Nat) (hx : x ∈ mergeStep capacity total weight res e d) :
    x ∈ res ∨ x = e := by
  unfold mergeStep at hx
  split at hx
  · rcases List.mem_append.mp hx with h | h
    · exact Or.inl h
    · exact Or.inr (by simpa using h)
  · split at hx
    · exact List.mem_or_eq_of_mem_set hx
    · exact Or.inl hx

theorem mergeInto_length (capacity total weight : Nat) (draw : Nat → Nat × Nat)
    (es : List Nat) :
    ∀ (i : Nat) (res : List Nat), res.length ≤ capacity →
      (mergeInto capacity total weight draw i res es).length =
        min (res.length + es.length) capacity := by
  induction es with
  | nil =>
    intro i res h
    simp only [mergeInto, List.length_nil, Nat.add_zero]
    omega
  | cons e es ih =>
    intro i res h
    have hs := mergeStep_length capacity total weight res e (draw i)
    simp only [mergeInto, List.length_cons]
    rw [ih (i + 1) _ (by rw [hs]; split <;> omega), hs]
    split <;> omega

theorem mergeInto_length_le (capacity total weight : Nat) (draw : Nat → Nat × Nat)
    (es : List Nat) :
    ∀ (i : Nat) (res : List Nat),
      (mergeInto capacity total weight draw i res es).length ≤ res.length + es.length := by
  induction es with
  | nil => intro i res; simp [mergeInto]
  | cons e es ih =>
    intro i res
    have hs := mergeStep_length capacity total weight res e (draw i)
    have := ih (i + 1) (mergeStep capacity total weight res e (draw i))
    simp only [mergeInto, List.length_cons]
    rw [hs] at this
    split at this <;> omega

theorem mergeInto_mem (capacity total weight : Nat) (draw : Nat → Nat × Nat)
    (es : List Nat) :
    ∀ (i : Nat) (res : List Nat) (x : Nat),
      x ∈ mergeInto capacity total weight draw i res es → x ∈ res ∨ x ∈ es := by
  induction es with
  | nil => intro i res x hx; exact Or.inl hx
  | cons e es ih =>
    intro i res x hx
    simp only [mergeInto] at hx
    rcases ih (i + 1) _ x hx with h | h
    · rcases mergeStep_mem capacity total weight res e (draw i) x h with h1 | h1
      · exact Or.inl h1
      · exact Or.inr (by rw [h1]; exact List.mem_cons_self _ _)
    · exact Or.inr (List.mem_cons_of_mem _ h)

theorem collecfn_fields (A B : Reservoir) (draw : Nat → Nat × Nat) :
    (reservoir_sampling_collecfn A B draw).capacity = max A.capacity B.capacity ∧
      (reservoir_sampling_collecfn A B draw).count_seen = A.count_seen + B.count_seen := by
  unfold reservoir_sampling_collecfn
  simp only
  split
  · exact ⟨rfl, rfl⟩
  · split <;> exact ⟨rfl, rfl⟩

theorem collecfn_concat (A B : Reservoir) (draw : Nat → Nat × Nat)
    (h : A.count_seen + B.count_seen ≤ max A.capacity B.capacity) :
    (reservoir_sampling_collecfn A B draw).elements = A.elements ++ B.elements := by
  unfold reservoir_sampling_collecfn
  simp only [h, if_true]

theorem collecfn_length (A B : Reservoir) (draw : Nat → Nat × Nat)
    (hA : A.Inv) (hB : B.Inv) :
    (reservoir_sampling_collecfn A B draw).elements.length =
      min (A.elements.length + B.elements.length) (max A.capacity B.capacity) := by
  unfold Reservoir.Inv at hA hB
  by_cases h : A.count_seen + B.count_seen ≤ max A.capacity B.capacity
  · rw [collecfn_concat A B draw h, List.length_append]
    omega
  · unfold reservoir_sampling_collecfn
    simp only [h, if_false]
    split
    · simp only
      rw [mergeInto_length _ _ _ _ _ _ _ (by omega)]
    · simp only
      rw [mergeInto_length _ _ _ _ _ _ _ (by omega), Nat.add_comm]

theorem collecfn_length_le (A B : Reservoir) (draw : Nat → Nat × Nat) :
    (reservoir_sampling_collecfn A B draw).elements.length ≤
      A.elements.length + B.elements.length := by
  unfold reservoir_sampling_collecfn
  simp only
  split
  · simp
  · split
    · exact mergeInto_length_le _ _ _ _ _ _ _
    · have := mergeInto_length_le (max A.capacity B.capacity) (A.count_seen + B.count_seen)
        A.count_seen draw A.elements 0 B.elements
      simp only
      omega

theorem collecfn_mem (A B : Reservoir) (draw : Nat → Nat × Nat) (x : Nat)
    (hx : x ∈ (reservoir_sampling_collecfn A B draw).elements) :
    x ∈ A.elements ∨ x ∈ B.elements := by
  unfold reservoir_sampling_collecfn at hx
  simp only at hx
  split at hx
  · exact List.mem_append.mp hx
  · split at hx
    · exact mergeInto_mem _ _ _ _ _ _ _ x hx
    · exact (mergeInto_mem _ _ _ _ _ _ _ x hx).symm

theorem filledReservoir_length (c seen : Nat) :
    (filledReservoir c seen).elements.length = min seen c := by
  simp [filledReservoir]

theorem filledReservoir_inv (c seen : Nat) : (filledReservoir c seen).Inv := by
  unfold Reservoir.Inv
  rw [filledReservoir_length]
  rfl

/-- C3 (as stated, refuted): `A` (capacity 2, 5 records seen, 2 elements) and
`B` (capacity 100, 3 records seen, 3 elements) satisfy the invariant and
`5 + 3 <= 100`, so the result is the concatenation; it has 5 elements, not
`min(8, 100) = 8`. -/
theorem combine_invariant_counterexample :
    (⟨2, 5, [1, 2]⟩ : Reservoir).Inv ∧ (⟨100, 3, [7, 8, 9]⟩ : Reservoir).Inv ∧
      reservoir_sampling_collecfn ⟨2, 5, [1, 2]⟩ ⟨100, 3, [7, 8, 9]⟩ (fun _ => (0, 0)) =
        ⟨100, 8, [1, 2, 7, 8, 9]⟩ ∧
      ¬ (reservoir_sampling_collecfn ⟨2, 5, [1, 2]⟩ ⟨100, 3, [7, 8, 9]⟩ (fun _ => (0, 0))).Inv := by
  decide

/-- C3 (amended): for `A` and `B` satisfying the invariant, the result `R` of
combine has capacity `max(A.capacity, B.capacity)`, `count_seen` the sum and
`min(len(A.elements) + len(B.elements), R.capacity)` elements; `R` satisfies
`len(R.elements) == min(R.count_seen, R.capacity)` exactly when `A` and `B`
together hold at least `min(R.count_seen, R.capacity)` elements, which is
always the case when `A.capacity = B.capacity`; when the sum of the counts
is at most `R.capacity`, `R.elements` is the concatenation. -/
theorem combine_invariant (A B : Reservoir) (draw : Nat → Nat × Nat)
    (hA : A.Inv) (hB : B.Inv) :
    (reservoir_sampling_collecfn A B draw).capacity = max A.capacity B.capacity ∧
      (reservoir_sampling_collecfn A B draw).count_seen = A.count_seen + B.count_seen ∧
      (reservoir_sampling_collecfn A B draw).elements.length =
        min (A.elements.length + B.elements.length) (max A.capacity B.capacity) ∧
      ((reservoir_sampling_collecfn A B draw).Inv ↔
        min (A.count_seen + B.count_seen) (max A.capacity B.capacity) ≤
          A.elements.length + B.elements.length) ∧
      (A.capacity = B.capacity → (reservoir_sampling_collecfn A B draw).Inv) ∧
      (A.count_seen + B.count_seen ≤ max A.capacity B.capacity →
        (reservoir_sampling_collecfn A B draw).elements = A.elements ++ B.elements) := by
  have hf := collecfn_fields A B draw
  have hl := collecfn_length A B draw hA hB
  have hiff : (reservoir_sampling_collecfn A B draw).Inv ↔
      min (A.count_seen + B.count_seen) (max A.capacity B.capacity) ≤
        A.elements.length + B.elements.length := by
    unfold Reservoir.Inv at hA hB ⊢
    rw [hl, hf.1, hf.2]
    omega
  refine ⟨hf.1, hf.2, hl, hiff, ?_, collecfn_concat A B draw⟩
  intro hcap
  refine hiff.mpr ?_
  unfold Reservoir.Inv at hA hB
  rw [← hcap, Nat.max_self]
  omega

theorem combine_invariant_witness :
    (reservoir_sampling_collecfn ⟨5, 3, [1, 2, 3]⟩ ⟨5, 4, [4, 5, 6, 7]⟩ (fun i => (i, i))).Inv ∧
      (reservoir_sampling_collecfn ⟨5, 3, [1, 2, 3]⟩ ⟨5, 4, [4, 5, 6, 7]⟩
        (fun i => (i, i))).elements.length = min (3 + 4) (max 5 5) :=
  have h := combine_invariant ⟨5, 3, [1, 2, 3]⟩ ⟨5, 4, [4, 5, 6, 7]⟩ (fun i => (i, i))
    (by decide) (by decide)
  ⟨h.2.2.2.2.1 rfl, h.2.2.1⟩

theorem sameOrd_same (px py kx ky t : Nat) (h : SameOrd px py kx ky) :
    SameOrd px py (2 * kx + t) (2 * ky + t) := by
  unfold SameOrd at h ⊢
  omega

theorem sameOrd_step (px py kx ky tx ty : Nat) (h : SameOrd px py kx ky)
    (hx : tx ≤ 1) (hy : ty ≤ 1) :
    SameOrd (2 * px + tx) (2 * py + ty) (2 * kx + tx) (2 * ky + ty) := by
  unfold SameOrd at h ⊢
  omega

theorem bitAt_le_one (v b : Nat) : bitAt v b ≤ 1 := by
  unfold bitAt
  omega

theorem emitRow_same (b : Nat) (l : List Nat) :
    ∀ (px py kx ky : Nat), SameOrd px py kx ky →
      SameOrd px py (emitRow b l kx) (emitRow b l ky) := by
  induction l with
  | nil => intro px py kx ky h; exact h
  | cons v vs ih =>
    intro px py kx ky h
    simp only [emitRow, List.foldl_cons] at ih ⊢
    exact ih px py _ _ (sameOrd_same px py kx ky (bitAt v b) h)

theorem emitRow_split (b : Nat) (front back : List Nat) (a key : Nat) :
    emitRow b (front ++ a :: back) key = emitRow b back (emitBit b (emitRow b front key) a) := by
  simp only [emitRow, List.foldl_append, List.foldl_cons]

theorem emitRow_differ (b : Nat) (front back : List Nat) (a c px py kx ky : Nat)
    (h : SameOrd px py kx ky) :
    SameOrd (2 * px + bitAt a b) (2 * py + bitAt c b)
      (emitRow b (front ++ a :: back) kx) (emitRow b (front ++ c :: back) ky) := by
  rw [emitRow_split, emitRow_split]
  apply emitRow_same
  have h1 := emitRow_same b front px py kx ky h
  exact sameOrd_step px py _ _ _ _ h1 (bitAt_le_one a b) (bitAt_le_one c b)

theorem shift_bit (a w : Nat) : 2 * (a / 2 ^ (w + 1)) + bitAt a w = a / 2 ^ w := by
  unfold bitAt
  have : a / 2 ^ (w + 1) = a / 2 ^ w / 2 := by
    rw [pow_succ, Nat.div_div_eq_div_mul]
  rw [this]
  omega

theorem levels_length_le (w k : Nat) : (levels w k).length ≤ w := by
  induction w generalizing k with
  | zero => simp [levels]
  | succ w ih =>
    cases k with
    | zero => simp [levels]
    | succ k =>
      simp only [levels, List.length_cons]
      have := ih k
      omega

theorem levels_fold (front back : List Nat) (a c : Nat) :
    ∀ (w k kx ky : Nat), SameOrd (a / 2 ^ w) (c / 2 ^ w) kx ky →
      SameOrd (a / 2 ^ (w - (levels w k).length)) (c / 2 ^ (w - (levels w k).length))
        ((levels w k).foldl (fun key b => emitRow b (front ++ a :: back) key) kx)
        ((levels w k).foldl (fun key b => emitRow b (front ++ c :: back) key) ky) := by
  intro w
  induction w with
  | zero =>
    intro k kx ky h
    simpa [levels] using h
  | succ w ih =>
    intro k kx ky h
    cases k with
    | zero => simpa [levels] using h
    | succ k =>
      simp only [levels, List.foldl_cons, List.length_cons]
      have hrow := emitRow_differ w front back a c _ _ kx ky h
      rw [shift_bit, shift_bit] at hrow
      have := ih k _ _ hrow
      have hsub : w + 1 - ((levels w k).length + 1) = w - (levels w k).length := by omega
      rw [hsub]
      exact this

theorem interleave_split_le (width bits : Nat) (front back : List Nat) (a c : Nat)
    (ha : a < 2 ^ width) (hc : c < 2 ^ width) (hle : a ≤ c) :
    interleave_bits width bits (front ++ a :: back) ≤
      interleave_bits width bits (front ++ c :: back) := by
  unfold interleave_bits
  have h0 : SameOrd (a / 2 ^ width) (c / 2 ^ width) 0 0 := by
    rw [Nat.div_eq_of_lt ha, Nat.div_eq_of_lt hc]
    unfold SameOrd
    omega
  have h := levels_fold front back a c width bits 0 0 h0
  have hdiv : a / 2 ^ (width - (levels width bits).length) ≤
      c / 2 ^ (width - (levels width bits).length) := Nat.div_le_div_right hle
  unfold SameOrd at h
  omega

/-- C6: if two coordinate vectors of mapped unsigned values agree in every
dimension except `d` and `x[d] <= y[d]`, then
`interleave(x) <= interleave(y)`, for every number of dimensions, every
value width and every per-dimension bit budget. -/
theorem interleave_bits_monotone (width bits : Nat) (x y : List Nat) (d : Nat)
    (hlen : x.length = y.length) (hd : d < x.length)
    (hagree : ∀ i : Nat, i ≠ d → x[i]? = y[i]?)
    (hx : x.getD d 0 < 2 ^ width) (hy : y.getD d 0 < 2 ^ width)
    (hle : x.getD d 0 ≤ y.getD d 0) :
    interleave_bits width bits x ≤ interleave_bits width bits y := by
  have hdy : d < y.length := hlen ▸ hd
  rw [List.getD_eq_getElem _ _ hd] at hx hle
  rw [List.getD_eq_getElem _ _ hdy] at hy hle
  have hxs : x = x.take d ++ x[d] :: x.drop (d + 1) := by
    rw [← List.drop_eq_getElem_cons hd, List.take_append_drop]
  have hys : y = x.take d ++ y[d] :: x.drop (d + 1) := by
    apply List.ext_getElem?
    intro i
    by_cases hi : i = d
    · subst hi
      rw [List.getElem?_append_right (by simp [Nat.min_eq_left (Nat.le_of_lt hd)])]
      simp [Nat.min_eq_left (Nat.le_of_lt hd), List.getElem?_eq_getElem hdy]
    · rw [← hagree i hi]
      conv_lhs => rw [hxs]
      by_cases hlt : i < d
      · rw [List.getElem?_append_left (by simp [Nat.min_eq_left (Nat.le_of_lt hd)]; exact hlt),
          List.getElem?_append_left (by simp [Nat.min_eq_left (Nat.le_of_lt hd)]; exact hlt)]
      · have hgt : d < i := by omega
        have hl : (x.take d).length = d := by simp [Nat.min_eq_left (Nat.le_of_lt hd)]
        rw [List.getElem?_append_right (by omega), List.getElem?_append_right (by omega), hl]
        obtain ⟨m, hm⟩ : ∃ m, i - d = m + 1 := ⟨i - d - 1, by omega⟩
        rw [hm]
        simp only [List.getElem?_cons_succ, List.getElem?_drop]
  rw [hxs, hys]
  exact interleave_split_le width bits _ _ _ _ hx hy hle

theorem interleave_bits_monotone_witness :
    interleave_bits 4 3 [10, 6, 3] ≤ interleave_bits 4 3 [10, 13, 3] :=
  interleave_bits_monotone 4 3 [10, 6, 3] [10, 13, 3] 1 rfl (by decide)
    (by
      intro i hi
      match i, hi with
      | 0, _ => rfl
      | 1, h => exact absurd rfl h
      | i + 2, _ => rfl)
    (by decide) (by decide) (by decide)


/-! ## Theorems: flattening -/

theorem regionOf_append (bytesOf : Nat → List Nat) (a b : List Nat) :
    regionOf bytesOf (a ++ b) = regionOf bytesOf a ++ regionOf bytesOf b := by
  induction a with
  | nil => rfl
  | cons e es ih =>
    show bytesOf e ++ regionOf bytesOf (es ++ b) =
      (bytesOf e ++ regionOf bytesOf es) ++ regionOf bytesOf b
    rw [ih, List.append_assoc]

theorem regionOf_split (bytesOf : Nat → List Nat) (es : List Nat) (n : Nat)
    (hn : n < es.length) :
    regionOf bytesOf es =
      regionOf bytesOf (es.take n) ++
        (bytesOf (es.getD n 0) ++ regionOf bytesOf (es.drop (n + 1))) := by
  have h : es = es.take n ++ es.getD n 0 :: es.drop (n + 1) := by
    rw [List.getD_eq_getElem _ _ hn, ← List.drop_eq_getElem_cons hn, List.take_append_drop]
  conv_lhs => rw [h]
  rw [regionOf_append]
  rfl

theorem flattenWalk_region (bytesOf : Nat → List Nat) (es : List Nat) :
    ∀ (reg : List Nat),
      (flattenWalk bytesOf reg es).2 = reg ++ regionOf bytesOf es ∧
      (flattenWalk bytesOf reg es).1.length = es.length := by
  induction es with
  | nil => intro reg; simp [flattenWalk, regionOf]
  | cons e es ih =>
    intro reg
    have := ih (reg ++ bytesOf e)
    simp only [flattenWalk, regionOf, List.length_cons]
    rw [this.1, this.2, List.append_assoc]
    exact ⟨rfl, rfl⟩

theorem flattenWalk_slot (bytesOf : Nat → List Nat) (es : List Nat) :
    ∀ (reg : List Nat) (k : Nat), k < es.length →
      (flattenWalk bytesOf reg es).1.getD k 0 =
        (reg.length + (regionOf bytesOf (es.take k)).length) % WORD := by
  induction es with
  | nil => intro reg k hk; exact absurd hk (Nat.not_lt_zero k)
  | cons e es ih =>
    intro reg k hk
    cases k with
    | zero => simp [flattenWalk, regionOf]
    | succ k =>
      have := ih (reg ++ bytesOf e) k (by simpa using hk)
      simp only [flattenWalk, List.getD_cons_succ, List.take_succ_cons, regionOf,
        List.length_append] at this ⊢
      rw [this]
      congr 1
      omega

theorem rs_flatten_header (enc : DatumBytes) (r : ReservoirSamplingState) :
    (rs_flatten enc r).is_flattened = true ∧
      (rs_flatten enc r).input_size = r.input_size ∧
      (rs_flatten enc r).data_len = r.data_len ∧
      (rs_flatten enc r).sample_size = r.sample_size ∧
      (rs_flatten enc r).partition_num = r.partition_num ∧
      RS_ELEMTYPE (rs_flatten enc r) = RS_ELEMTYPE r ∧
      (rs_flatten enc r).typlen = r.typlen ∧
      (rs_flatten enc r).typbyval = r.typbyval :=
  ⟨rfl, rfl, rfl, rfl, rfl, rfl, rfl, rfl⟩

theorem rs_flatten_body (enc : DatumBytes) (r : ReservoirSamplingState) :
    (rs_flatten enc r).data = (flattenWalk (enc r.typbyval) [] r.data).1 ∧
      (rs_flatten enc r).region = regionOf (enc r.typbyval) r.data ∧
      (rs_flatten enc r).vl_len =
        ((RS_DATA_OFFSET r + (regionOf (enc r.typbyval) r.data).length : Nat) : Int) := by
  have hw := (flattenWalk_region (enc r.typbyval) r.data []).1
  rw [List.nil_append] at hw
  unfold rs_flatten
  simp only [hw, and_self]

theorem ptrDiff_RS_ELEM_ANY (f : ReservoirSamplingState) (p n : Nat)
    (hf : f.is_flattened = true) :
    ptrDiff (RS_ELEM_ANY p f n) p = (RS_DATA_OFFSET f + RS_ELEM f n) % WORD := by
  simp only [RS_ELEM_ANY, hf, if_true, RS_FLAT_ELEM, RS_DATA_PTR, RS_FLAT_ELEM_OFFSET, ptrDiff,
    WORD]
  omega

end ZOrder
